import Mathlib

/-!
Verification of the chain-ordering, AIA bundle-building, name-formatting and
trust-validation logic of the tls-doctor repository, as a shallow embedding.

Certificates are modelled by the data the verified code inspects: the DER
bytes of the subject and issuer distinguished names (as lists of naturals)
and the list of CA-Issuers URLs extracted from the AIA extension.  The Rust
code compares certificates by pointer identity into the input slice; the
embedding uses the index into the input list for the same purpose.
-/

namespace TlsDoctor

/-- DER bytes of a distinguished name (`X509NameRef::to_der`). -/
abbrev DN := List Nat

/-- The view of a parsed certificate used by `chain.rs` and `scaffold.rs`:
subject DN bytes, issuer DN bytes, and the caIssuers URLs that
`aia_ca_issuers_urls` extracts from the AIA extension. -/
structure Cert where
  subject : DN
  issuer : DN
  aia : List String
deriving DecidableEq

instance : Inhabited Cert := ⟨⟨[], [], []⟩⟩

/-- `is_self_issued` in `scaffold.rs`: subject DN bytes equal issuer DN bytes. -/
def is_self_issued (c : Cert) : Bool := c.subject = c.issuer

/-! ### Chain orderer (`chain.rs`, `order_chain_leaf_to_root`)

The Rust function builds `by_subject : HashMap<Vec<u8>, Vec<&X509Ref>>` in
input order and always takes `.first()` of the bucket, so a lookup returns
the first certificate in input order whose subject equals the key.  We embed
that as a first-index search.  The cycle guard `std::ptr::eq` and the `used`
set work on slice identity, i.e. on indices into the input list. -/

/-- Index of the first list element satisfying `p` (first-match-wins). -/
def firstIdxP (p : Cert → Bool) : List Cert → Option Nat
  | [] => none
  | c :: rest => if p c then some 0 else (firstIdxP p rest).map (· + 1)

/-- `by_subject.get(&dn).and_then(|v| v.first())`: index of the first input
certificate whose subject DN equals `dn`. -/
def subjIdx (certs : List Cert) (dn : DN) : Option Nat :=
  firstIdxP (fun c => c.subject = dn) certs

/-- A certificate is a leaf candidate when its subject DN is not used as an
issuer DN by any certificate of the input (`!issuer_subjects.contains`). -/
def isLeafCandidate (certs : List Cert) (c : Cert) : Bool :=
  !(certs.map Cert.issuer).contains c.subject

/-- `candidate_leafs.first().copied().unwrap_or_else(|| all[0])`: first leaf
candidate in input order, index 0 as fallback.  (The Rust code panics on an
empty input; the caller rejects empty bundles before this stage.) -/
def leafIdx (certs : List Cert) : Nat :=
  (firstIdxP (isLeafCandidate certs) certs).getD 0

/-- The issuer-following loop of `order_chain_leaf_to_root`.  `seq` holds the
indices appended so far, `cur` the index of the current certificate.  The
loop stops at a self-signed certificate, at a missing issuer, or when the
looked-up issuer is already in `seq` (pointer-identity cycle guard).  The
Rust loop needs no fuel: every iteration appends a fresh index `< certs.length`,
so `certs.length` fuel is never exhausted when the initial `seq` is `[cur]`. -/
def chainWalk (certs : List Cert) : Nat → List Nat → Nat → List Nat
  | 0, seq, _ => seq
  | fuel + 1, seq, cur =>
    let c := certs.getD cur default
    if c.issuer = c.subject then seq
    else
      match subjIdx certs c.issuer with
      | none => seq
      | some n => if n ∈ seq then seq else chainWalk certs fuel (seq ++ [n]) n

/-- `order_chain_leaf_to_root` from `chain.rs`, returning the ordered chain
and the unused certificates as indices into the input list.  `unused`
preserves input order (`all.into_iter().filter(...)`). -/
def order_chain_leaf_to_root (certs : List Cert) : List Nat × List Nat :=
  let leaf := leafIdx certs
  let seq := chainWalk certs certs.length [leaf] leaf
  (seq, (List.range certs.length).filter (fun i => i ∉ seq))

/-- The ordered chain as certificate values. -/
def orderedCerts (certs : List Cert) : List Cert :=
  (order_chain_leaf_to_root certs).1.map (fun i => certs.getD i default)

/-- The unused certificates as values, in input order. -/
def unusedCerts (certs : List Cert) : List Cert :=
  (order_chain_leaf_to_root certs).2.map (fun i => certs.getD i default)

/-! ### AIA bundle builder (`scaffold.rs`, `build_bundle_from_leaf`)

The network is an oracle `fetch : String → Option (List Cert)`:
`fetch_issuer_from_url` either fails (network error, non-2xx status,
unparseable body — all collapsed to `none`) or yields the parsed
certificates of the response body.  The Rust loop has no fuel; it can only
run as long as the network keeps producing fresh subjects, so every
terminating execution is reproduced by some fuel value and all theorems
quantify over the fuel.  The embedding also records the list of URLs
fetched, in order, to state the no-fetch-past-the-root property. -/

/-- The URL scan of one loop iteration: try each URL in order; a failed
fetch is skipped; from a successful fetch take the first candidate whose
subject equals `issDN`; stop scanning once a match is found.  Returns the
match (if any) and the URLs actually fetched. -/
def findIssuer (fetch : String → Option (List Cert)) (issDN : DN) :
    List String → Option Cert × List String
  | [] => (none, [])
  | url :: rest =>
    let cands := (fetch url).getD []
    match cands.find? (fun c => c.subject = issDN) with
    | some c => (some c, [url])
    | none =>
      let r := findIssuer fetch issDN rest
      (r.1, url :: r.2)

/-- The main loop of `build_bundle_from_leaf`: stop at a self-issued
certificate, at an empty AIA URL list, at a failed issuer search, or at a
subject already seen (loop guard); otherwise append the issuer and record
its subject.  Also accumulates the trace of fetched URLs. -/
def bundleLoop (fetch : String → Option (List Cert)) :
    Nat → List Cert → List DN → List String → List Cert × List String
  | 0, chain, _, trace => (chain, trace)
  | fuel + 1, chain, seen, trace =>
    let current := chain.getLastD default
    if is_self_issued current then (chain, trace)
    else if current.aia = [] then (chain, trace)
    else
      let r := findIssuer fetch current.issuer current.aia
      let trace := trace ++ r.2
      match r.1 with
      | none => (chain, trace)
      | some issuer =>
        if issuer.subject ∈ seen then (chain, trace)
        else bundleLoop fetch fuel (chain ++ [issuer]) (issuer.subject :: seen) trace

/-- `build_bundle_from_leaf` from `scaffold.rs`, instrumented with the trace
of fetched URLs.  The chain starts as `[leaf]` and `seen` as the leaf's
subject.  Network failures never become errors of the builder: the function
is total and always yields a chain. -/
def build_bundle_traced (fetch : String → Option (List Cert)) (leaf : Cert)
    (fuel : Nat) : List Cert × List String :=
  bundleLoop fetch fuel [leaf] [leaf.subject] []

/-- `build_bundle_from_leaf`: the assembled chain. -/
def build_bundle_from_leaf (fetch : String → Option (List Cert)) (leaf : Cert)
    (fuel : Nat) : List Cert :=
  (build_bundle_traced fetch leaf fuel).1

/-! ### Name formatting and certificate-type heuristics (`util.rs`)

The Rust code walks `X509NameEntries`, keeping `(nid, value)` pairs for six
attribute NIDs whose value decodes as UTF-8, then renders them grouped by a
fixed priority order.  A name entry is modelled by its NID and the result
of `data().as_utf8()`. -/

/-- The OpenSSL NIDs the formatting code distinguishes. -/
inductive Nid where
  | commonName
  | organizationName
  | organizationalUnitName
  | countryName
  | stateOrProvinceName
  | localityName
  | serialNumber
  | other (code : Nat)
deriving DecidableEq

/-- One subject/issuer name entry: its NID and `data().as_utf8()`
(`none` when the value does not decode). -/
structure NameEntry where
  nid : Nid
  utf8 : Option String
deriving DecidableEq

/-- The six NIDs kept by `name_items`/`format_name_human`. -/
def keptNids : List Nid :=
  [Nid.commonName, Nid.organizationName, Nid.organizationalUnitName,
   Nid.countryName, Nid.stateOrProvinceName, Nid.localityName]

/-- The label table of `format_name_human` (the `_ => ""` arm included). -/
def labelOf (n : Nid) : String :=
  match n with
  | Nid.commonName => "Common Name"
  | Nid.organizationName => "Organization"
  | Nid.organizationalUnitName => "Organizational Unit"
  | Nid.countryName => "Country"
  | Nid.stateOrProvinceName => "State/Province"
  | Nid.localityName => "Locality"
  | _ => ""

/-- The label table of the fallback branch (`_ => "Other"`). -/
def labelOfOther (n : Nid) : String :=
  match n with
  | Nid.commonName => "Common Name"
  | Nid.organizationName => "Organization"
  | Nid.organizationalUnitName => "Organizational Unit"
  | Nid.countryName => "Country"
  | Nid.stateOrProvinceName => "State/Province"
  | Nid.localityName => "Locality"
  | _ => "Other"

/-- The collection loop shared by `name_items` and `format_name_human`:
keep `(nid, value)` for the six NIDs when the value decodes as UTF-8. -/
def collectParts (entries : List NameEntry) : List (Nid × String) :=
  entries.filterMap (fun e =>
    match e.utf8 with
    | some v => if e.nid ∈ keptNids then some (e.nid, v) else none
    | none => none)

/-- `if !out.is_empty() { out.push_str(", ") }` followed by pushing `s`. -/
def appendSep (out s : String) : String :=
  (if out = "" then out else out ++ ", ") ++ s

/-- The rendering loop of `format_name_human`: for each NID of the priority
order, append `label=value` for every collected part with that NID,
separated by `", "`. -/
def renderParts (parts : List (Nid × String)) : String :=
  keptNids.foldl (fun out nid =>
    parts.foldl (fun out p =>
      if p.1 = nid then appendSep out (labelOf nid ++ "=" ++ p.2)
      else out) out) ""

/-- `format_name_human` from `util.rs`, including its fallback branch for a
non-empty part list producing an empty rendering. -/
def format_name_human (entries : List NameEntry) : String :=
  let parts := collectParts entries
  let out := renderParts parts
  if out = "" then
    if parts = [] then ""
    else String.intercalate ", "
      (parts.map (fun p => labelOfOther p.1 ++ " = " ++ p.2))
  else out

/-- `infer_cert_type` from `util.rs`: DV/OV/EV from the presence of the
Organization and SerialNumber attributes in the subject (no UTF-8 check). -/
def infer_cert_type (subjectEntries : List NameEntry) : Option String :=
  let has_o := subjectEntries.any (fun e => e.nid = Nid.organizationName)
  let has_sn := subjectEntries.any (fun e => e.nid = Nid.serialNumber)
  if has_o && has_sn then some "Extended Validation"
  else if has_o then some "Organization Validation"
  else some "Domain Validation"

/-! ### Trust validator (`validate.rs`, `validate_chain`)

The OpenSSL engine is an oracle: each fallible setup step
(`X509StoreBuilder::new`, `set_default_paths`, `Stack::new`, `push`,
`X509StoreContext::new`) yields an `Except`, `ctx.init(...)` yields
`Except String Bool`, and on a `false` verdict the context exposes the
error text, the depth and the failing certificate's subject entries.
`validate_chain` mirrors the Rust `Result<Result<(), String>>`:
`Except.ok (Except.ok ())` is valid, `Except.ok (Except.error msg)` is a
validation failure, `Except.error e` is an engine/setup error. -/

structure Engine where
  mkBuilder : Except String Unit
  setDefaultPaths : Except String Unit
  mkStack : Except String Unit
  pushCert : Cert → Except String Unit
  mkContext : Except String Unit
  initVerify : Except String Bool
  vError : String
  vDepth : Nat
  vCurrentCert : Option (List NameEntry)

/-- `validate_chain` from `validate.rs`.  Each `match` on an `Except` is one
`?` of the Rust code: an error propagates as the outer `Except.error`. -/
def validate_chain (eng : Engine) (_leaf : Cert) (chain : List Cert) :
    Except String (Except String Unit) :=
  match eng.mkBuilder with
  | Except.error e => Except.error e
  | Except.ok _ =>
  match eng.setDefaultPaths with
  | Except.error e => Except.error e
  | Except.ok _ =>
  match eng.mkStack with
  | Except.error e => Except.error e
  | Except.ok _ =>
  match chain.forM eng.pushCert with
  | Except.error e => Except.error e
  | Except.ok _ =>
  match eng.mkContext with
  | Except.error e => Except.error e
  | Except.ok _ =>
  match eng.initVerify with
  | Except.ok true => Except.ok (Except.ok ())
  | Except.ok false =>
    let snippet :=
      match eng.vCurrentCert with
      | some entries =>
        let subj := format_name_human entries
        if subj = "" then "<unknown subject>" else subj
      | none => "<unknown certificate>"
    Except.ok (Except.error
      (eng.vError ++ " (depth " ++ toString eng.vDepth ++ " on " ++ snippet ++ ")"))
  | Except.error e => Except.error e

/-- Comma-separated join of rendered items. -/
def joinComma (ss : List String) : String :=
  ss.foldl appendSep ""

/-- Modelled from the spec: the compact subject rendering described in the
spec's Trust Validator section — the attributes Common Name, Organization,
Organizational Unit, Country, State/Province, Locality in that fixed
priority order, each rendered `label=value`, joined by `", "`, attributes
absent from the certificate omitted.  Used to compare the spec's message
format against `format_name_human`. -/
def specCompactName (entries : List NameEntry) : String :=
  joinComma
    ((keptNids.map (fun nid =>
      entries.filterMap (fun e =>
        if e.nid = nid then e.utf8.map (fun v => labelOf nid ++ "=" ++ v)
        else none))).flatten)

/-! ## String and fold helper lemmas -/

lemma append_ne_empty_left {s : String} (t : String) (h : s ≠ "") :
    s ++ t ≠ "" := by
  intro hc
  have hlen := congrArg String.length hc
  rw [String.length_append] at hlen
  apply h
  have hs : s.length = 0 := by
    have : String.length "" = 0 := rfl
    omega
  cases s with
  | mk data =>
    cases data with
    | nil => rfl
    | cons a l => simp [String.length] at hs

lemma append_ne_empty_right (s : String) {t : String} (h : t ≠ "") :
    s ++ t ≠ "" := by
  intro hc
  have hlen := congrArg String.length hc
  rw [String.length_append] at hlen
  apply h
  have ht : t.length = 0 := by
    have : String.length "" = 0 := rfl
    omega
  cases t with
  | mk data =>
    cases data with
    | nil => rfl
    | cons a l => simp [String.length] at ht

lemma appendSep_ne_empty {out s : String} (h : out ≠ "" ∨ s ≠ "") :
    appendSep out s ≠ "" := by
  unfold appendSep
  rcases h with h | h
  · rw [if_neg h]
    exact append_ne_empty_left s (append_ne_empty_left _ h)
  · exact append_ne_empty_right _ h

lemma foldl_appendSep_ne_empty :
    ∀ (ss : List String) {out : String}, out ≠ "" →
      ss.foldl appendSep out ≠ "" := by
  intro ss
  induction ss with
  | nil => intro out h; exact h
  | cons s rest ih =>
    intro out h
    exact ih (appendSep_ne_empty (Or.inl h))

lemma joinComma_ne_empty {ss : List String} (hne : ss ≠ [])
    (hall : ∀ s ∈ ss, s ≠ "") : joinComma ss ≠ "" := by
  cases ss with
  | nil => exact absurd rfl hne
  | cons s rest =>
    show (s :: rest).foldl appendSep "" ≠ ""
    rw [List.foldl_cons]
    exact foldl_appendSep_ne_empty rest
      (appendSep_ne_empty (Or.inr (hall s (List.mem_cons_self s rest))))

/-- The selection applied to collected parts for one NID of the priority
order. -/
def partSel (nid : Nid) (p : Nid × String) : Option String :=
  if p.1 = nid then some (labelOf nid ++ "=" ++ p.2) else none

lemma inner_fold_eq (nid : Nid) (parts : List (Nid × String)) :
    ∀ out : String,
      parts.foldl (fun out p =>
        if p.1 = nid then appendSep out (labelOf nid ++ "=" ++ p.2)
        else out) out
      = (parts.filterMap (partSel nid)).foldl appendSep out := by
  induction parts with
  | nil => intro out; rfl
  | cons p rest ih =>
    intro out
    by_cases h : p.1 = nid <;>
      simp [h, List.filterMap_cons, partSel, ih]

lemma outer_fold_eq (parts : List (Nid × String)) :
    ∀ (ns : List Nid) (out : String),
      ns.foldl (fun out nid =>
        parts.foldl (fun out p =>
          if p.1 = nid then appendSep out (labelOf nid ++ "=" ++ p.2)
          else out) out) out
      = ((ns.map (fun nid => parts.filterMap (partSel nid))).flatten).foldl
          appendSep out := by
  intro ns
  induction ns with
  | nil => intro out; rfl
  | cons n ns ih =>
    intro out
    rw [List.foldl_cons, ih, List.map_cons, List.flatten_cons,
      List.foldl_append, inner_fold_eq]

lemma renderParts_eq (parts : List (Nid × String)) :
    renderParts parts
      = joinComma ((keptNids.map
          (fun nid => parts.filterMap (partSel nid))).flatten) := by
  unfold renderParts joinComma
  exact outer_fold_eq parts keptNids ""

lemma collectParts_mem_kept {entries : List NameEntry} {p : Nid × String}
    (hp : p ∈ collectParts entries) : p.1 ∈ keptNids := by
  rw [collectParts, List.mem_filterMap] at hp
  obtain ⟨e, _, he⟩ := hp
  cases hu : e.utf8 with
  | none => simp [hu] at he
  | some v =>
    simp only [hu] at he
    by_cases hk : e.nid ∈ keptNids
    · rw [if_pos hk, Option.some_inj] at he
      rw [← he]
      exact hk
    · rw [if_neg hk] at he
      exact absurd he (by simp)

lemma collect_filterMap_eq (entries : List NameEntry) {nid : Nid}
    (hk : nid ∈ keptNids) :
    (collectParts entries).filterMap (partSel nid)
      = entries.filterMap (fun e =>
          if e.nid = nid then e.utf8.map (fun v => labelOf nid ++ "=" ++ v)
          else none) := by
  rw [collectParts, List.filterMap_filterMap]
  apply List.filterMap_congr
  intro e _
  cases hu : e.utf8 with
  | none => by_cases h : e.nid = nid <;> simp [hu, h]
  | some v =>
    by_cases h : e.nid = nid
    · simp [hu, h, hk, partSel]
    · by_cases hkk : e.nid ∈ keptNids <;> simp [hu, h, hkk, partSel]

/-- The dead fallback branch of `format_name_human` is unreachable: an empty
rendering forces an empty part list.  Hence the function always equals the
spec's compact-name rendering. -/
lemma format_name_human_eq_spec (entries : List NameEntry) :
    format_name_human entries = specCompactName entries := by
  have hmap : keptNids.map
        (fun nid => (collectParts entries).filterMap (partSel nid))
      = keptNids.map (fun nid =>
          entries.filterMap (fun e =>
            if e.nid = nid then
              e.utf8.map (fun v => labelOf nid ++ "=" ++ v)
            else none)) :=
    List.map_congr_left (fun nid hnid => collect_filterMap_eq entries hnid)
  have hspec : specCompactName entries
      = joinComma ((keptNids.map
          (fun nid => (collectParts entries).filterMap (partSel nid))).flatten) := by
    rw [specCompactName, hmap]
  rw [format_name_human, renderParts_eq, hspec]
  by_cases hout : joinComma ((keptNids.map
      (fun nid => (collectParts entries).filterMap (partSel nid))).flatten) = ""
  · rw [if_pos hout]
    have hparts : collectParts entries = [] := by
      by_contra hne
      obtain ⟨p, hp⟩ := List.exists_mem_of_ne_nil _ hne
      have hEne : (keptNids.map
          (fun nid => (collectParts entries).filterMap (partSel nid))).flatten ≠ [] := by
        intro hflat
        have hmem : labelOf p.1 ++ "=" ++ p.2 ∈
            ((keptNids.map (fun nid =>
              (collectParts entries).filterMap (partSel nid))).flatten) := by
          rw [List.mem_flatten]
          exact ⟨(collectParts entries).filterMap (partSel p.1),
            List.mem_map_of_mem _ (collectParts_mem_kept hp),
            List.mem_filterMap.2 ⟨p, hp, by simp [partSel]⟩⟩
        rw [hflat] at hmem
        exact absurd hmem (List.not_mem_nil _)
      have hall : ∀ s ∈ (keptNids.map
          (fun nid => (collectParts entries).filterMap (partSel nid))).flatten,
          s ≠ "" := by
        intro s hs
        rw [List.mem_flatten] at hs
        obtain ⟨l, hl, hsl⟩ := hs
        obtain ⟨nid, _, rfl⟩ := List.mem_map.1 hl
        obtain ⟨p', _, hp'⟩ := List.mem_filterMap.1 hsl
        simp only [partSel] at hp'
        by_cases h : p'.1 = nid
        · rw [if_pos h, Option.some_inj] at hp'
          rw [← hp']
          exact append_ne_empty_left _ (append_ne_empty_right _ (by decide))
        · rw [if_neg h] at hp'
          exact absurd hp' (by simp)
      exact absurd hout (joinComma_ne_empty hEne hall)
    rw [if_pos hparts, hout]
  · rw [if_neg hout]

/-! ## C8: DV/OV/EV classification -/

/-- C8: `infer_cert_type` classifies a certificate as "Extended Validation"
when its subject contains both an Organization and a SerialNumber attribute,
as "Organization Validation" when it contains Organization only, and as
"Domain Validation" when it contains neither. -/
theorem infer_cert_type_classification (es : List NameEntry) :
    ((∃ e ∈ es, e.nid = Nid.organizationName) →
      (∃ e ∈ es, e.nid = Nid.serialNumber) →
      infer_cert_type es = some "Extended Validation")
  ∧ ((∃ e ∈ es, e.nid = Nid.organizationName) →
      (¬ ∃ e ∈ es, e.nid = Nid.serialNumber) →
      infer_cert_type es = some "Organization Validation")
  ∧ ((¬ ∃ e ∈ es, e.nid = Nid.organizationName) →
      (¬ ∃ e ∈ es, e.nid = Nid.serialNumber) →
      infer_cert_type es = some "Domain Validation") := by
  have ho : (es.any fun e => e.nid = Nid.organizationName) = true
      ↔ (∃ e ∈ es, e.nid = Nid.organizationName) := by simp
  have hsn : (es.any fun e => e.nid = Nid.serialNumber) = true
      ↔ (∃ e ∈ es, e.nid = Nid.serialNumber) := by simp
  refine ⟨fun h1 h2 => ?_, fun h1 h2 => ?_, fun h1 h2 => ?_⟩
  · simp [infer_cert_type, ho.2 h1, hsn.2 h2]
  · have h2' : (es.any fun e => e.nid = Nid.serialNumber) = false :=
      Bool.eq_false_iff.2 (fun hh => h2 (hsn.1 hh))
    simp [infer_cert_type, ho.2 h1, h2']
  · have h1' : (es.any fun e => e.nid = Nid.organizationName) = false :=
      Bool.eq_false_iff.2 (fun hh => h1 (ho.1 hh))
    have h2' : (es.any fun e => e.nid = Nid.serialNumber) = false :=
      Bool.eq_false_iff.2 (fun hh => h2 (hsn.1 hh))
    simp [infer_cert_type, h1', h2']

/-- Witness for C8 on concrete subjects: an Organization plus SerialNumber
subject is classified Extended Validation. -/
theorem infer_cert_type_classification_witness :
    infer_cert_type [⟨Nid.organizationName, some "Acme"⟩,
      ⟨Nid.serialNumber, some "123"⟩] = some "Extended Validation" :=
  (infer_cert_type_classification _).1
    ⟨⟨Nid.organizationName, some "Acme"⟩, by simp, rfl⟩
    ⟨⟨Nid.serialNumber, some "123"⟩, by simp, rfl⟩

/-! ## C5: totality and outcome classification of `validate_chain` -/

/-- C5: every call of `validate_chain` yields exactly one of the three
outcomes valid, invalid-with-message, or engine-error; a validation-failure
outcome happens only when the engine actually reported a failed
verification, and an engine/setup error (e.g. failing to construct the
trust store builder) surfaces as the distinct engine-error outcome. -/
theorem validate_chain_total (eng : Engine) (leaf : Cert) (chain : List Cert) :
    (validate_chain eng leaf chain = Except.ok (Except.ok ())
      ∨ (∃ m, validate_chain eng leaf chain = Except.ok (Except.error m))
      ∨ (∃ e, validate_chain eng leaf chain = Except.error e))
  ∧ (∀ m, validate_chain eng leaf chain = Except.ok (Except.error m) →
      eng.initVerify = Except.ok false)
  ∧ (∀ e, eng.mkBuilder = Except.error e →
      validate_chain eng leaf chain = Except.error e) := by
  rcases h1 : eng.mkBuilder with e1 | u1 <;>
    rcases h2 : eng.setDefaultPaths with e2 | u2 <;>
      rcases h3 : eng.mkStack with e3 | u3 <;>
        rcases h4 : chain.forM eng.pushCert with e4 | u4 <;>
          rcases h5 : eng.mkContext with e5 | u5 <;>
            rcases h6 : eng.initVerify with e6 | (_ | _) <;>
              simp [validate_chain, h1, h2, h3, h4, h5, h6]

/-- Witness for C5: a concrete engine whose store-builder construction
fails produces the engine-error outcome with that very error. -/
theorem validate_chain_total_witness :
    validate_chain
      ⟨Except.error "no trust store", Except.ok (), Except.ok (),
        fun _ => Except.ok (), Except.ok (), Except.ok true, "", 0, none⟩
      default [] = Except.error "no trust store" :=
  (validate_chain_total _ default []).2.2 "no trust store" rfl

/-! ## C7: the validation-failure message format -/

/-- An engine that reports a failed verification whose failing certificate
has an empty subject (no DN attributes at all). -/
def engEmptySubject : Engine :=
  ⟨Except.ok (), Except.ok (), Except.ok (), fun _ => Except.ok (),
    Except.ok (), Except.ok false, "E", 2, some []⟩

/-- Counterexample to C7 as stated: when the failing certificate's subject
yields no attributes, the code does not produce
`"<engine-error-text> (depth <N> on <compact-name>)"` with the compact name
built from the DN attributes (which would render as the empty string): it
substitutes `"<unknown subject>"` instead. -/
theorem validate_chain_message_cex :
    validate_chain engEmptySubject default []
        = Except.ok (Except.error "E (depth 2 on <unknown subject>)")
      ∧ "E (depth 2 on <unknown subject>)"
        ≠ "E" ++ " (depth " ++ toString (2 : Nat) ++ " on "
            ++ specCompactName [] ++ ")" := by
  constructor
  · rfl
  · decide

/-- C7 amended: for every validation failure in which the engine reports the
failing certificate and that certificate's subject yields a non-empty
compact rendering, the message is
`"<engine-error-text> (depth <N> on <compact-name>)"`, where the compact
name is built from exactly the attributes Common Name, Organization,
Organizational Unit, Country, State/Province, Locality, in that fixed
priority order, absent attributes omitted (`specCompactName`).  (When the
rendering is empty the code substitutes `"<unknown subject>"`, and when no
failing certificate is reported, `"<unknown certificate>"`.) -/
theorem validate_chain_failure_message (eng : Engine) (leaf : Cert)
    (chain : List Cert) (entries : List NameEntry)
    (h1 : eng.mkBuilder = Except.ok ())
    (h2 : eng.setDefaultPaths = Except.ok ())
    (h3 : eng.mkStack = Except.ok ())
    (h4 : chain.forM eng.pushCert = Except.ok ())
    (h5 : eng.mkContext = Except.ok ())
    (h6 : eng.initVerify = Except.ok false)
    (hc : eng.vCurrentCert = some entries)
    (hne : specCompactName entries ≠ "") :
    validate_chain eng leaf chain
      = Except.ok (Except.error
          (eng.vError ++ " (depth " ++ toString eng.vDepth ++ " on "
            ++ specCompactName entries ++ ")")) := by
  have hfmt : format_name_human entries = specCompactName entries :=
    format_name_human_eq_spec entries
  simp [validate_chain, h1, h2, h3, h4, h5, h6, hc, hfmt, hne]

/-- An engine that reports a failed verification at depth 1 on a
certificate whose subject is `CN=IntermCA`. -/
def engCNSubject : Engine :=
  ⟨Except.ok (), Except.ok (), Except.ok (), fun _ => Except.ok (),
    Except.ok (), Except.ok false, "certificate has expired", 1,
    some [⟨Nid.commonName, some "IntermCA"⟩]⟩

/-- Witness for the amended C7 on a concrete failing certificate. -/
theorem validate_chain_failure_message_witness :
    validate_chain engCNSubject default []
      = Except.ok (Except.error
          (engCNSubject.vError ++ " (depth " ++ toString engCNSubject.vDepth
            ++ " on " ++ specCompactName [⟨Nid.commonName, some "IntermCA"⟩]
            ++ ")")) :=
  validate_chain_failure_message engCNSubject default []
    [⟨Nid.commonName, some "IntermCA"⟩] rfl rfl rfl rfl rfl rfl rfl
    (by decide)

/-! ## Chain-orderer lemmas -/

lemma firstIdxP_some {p : Cert → Bool} :
    ∀ {l : List Cert} {n : Nat}, firstIdxP p l = some n →
      n < l.length ∧ p (l.getD n default) = true := by
  intro l
  induction l with
  | nil => intro n h; exact absurd h (by simp [firstIdxP])
  | cons c rest ih =>
    intro n h
    rw [firstIdxP] at h
    by_cases hc : p c
    · rw [if_pos hc, Option.some_inj] at h
      subst h
      exact ⟨Nat.succ_pos _, hc⟩
    · rw [if_neg hc] at h
      cases hr : firstIdxP p rest with
      | none => rw [hr] at h; exact absurd h (by simp)
      | some m =>
        rw [hr] at h
        simp only [Option.map_some', Option.some_inj] at h
        subst h
        obtain ⟨h1, h2⟩ := ih hr
        exact ⟨Nat.succ_lt_succ h1, by simp only [List.getD_cons_succ]; exact h2⟩

lemma firstIdxP_none {p : Cert → Bool} :
    ∀ {l : List Cert}, firstIdxP p l = none → ∀ c ∈ l, p c = false := by
  intro l
  induction l with
  | nil => intro _ c hc; exact absurd hc (List.not_mem_nil c)
  | cons c rest ih =>
    intro h d hd
    rw [firstIdxP] at h
    by_cases hc : p c
    · rw [if_pos hc] at h; exact absurd h (by simp)
    · rw [if_neg hc] at h
      rcases List.mem_cons.1 hd with rfl | hd'
      · exact Bool.eq_false_iff.2 hc
      · cases hr : firstIdxP p rest with
        | none => exact ih hr d hd'
        | some m => rw [hr] at h; exact absurd h (by simp)

lemma firstIdxP_min {p : Cert → Bool} :
    ∀ {l : List Cert} {n : Nat}, firstIdxP p l = some n →
      ∀ m, m < n → p (l.getD m default) = false := by
  intro l
  induction l with
  | nil => intro n h; exact absurd h (by simp [firstIdxP])
  | cons c rest ih =>
    intro n h m hm
    rw [firstIdxP] at h
    by_cases hc : p c
    · rw [if_pos hc, Option.some_inj] at h
      omega
    · rw [if_neg hc] at h
      cases hr : firstIdxP p rest with
      | none => rw [hr] at h; exact absurd h (by simp)
      | some k =>
        rw [hr] at h
        simp only [Option.map_some', Option.some_inj] at h
        subst h
        cases m with
        | zero => exact Bool.eq_false_iff.2 hc
        | succ m' =>
          simp only [List.getD_cons_succ]
          exact ih hr m' (Nat.lt_of_succ_lt_succ hm)

lemma subjIdx_some {certs : List Cert} {dn : DN} {n : Nat}
    (h : subjIdx certs dn = some n) :
    n < certs.length ∧ (certs.getD n default).subject = dn := by
  obtain ⟨h1, h2⟩ := firstIdxP_some h
  exact ⟨h1, by simpa using h2⟩

lemma subjIdx_none {certs : List Cert} {dn : DN}
    (h : subjIdx certs dn = none) : ∀ c ∈ certs, c.subject ≠ dn := by
  intro c hc
  have := firstIdxP_none h c hc
  simpa using this

/-- Adjacency between indices, read through the input list. -/
def adjI (certs : List Cert) (i j : Nat) : Prop :=
  (certs.getD i default).issuer = (certs.getD j default).subject

/-- The walk of `order_chain_leaf_to_root` only extends `seq`, preserves
distinctness and the issuer→subject adjacency, and appends only in-range
indices. -/
lemma chainWalk_master (certs : List Cert) :
    ∀ (fuel : Nat) (seq : List Nat) (cur : Nat),
      seq.getLast? = some cur →
      (∃ ext, chainWalk certs fuel seq cur = seq ++ ext)
      ∧ (seq.Nodup → (chainWalk certs fuel seq cur).Nodup)
      ∧ (∀ i ∈ chainWalk certs fuel seq cur, i ∈ seq ∨ i < certs.length)
      ∧ (List.Chain' (adjI certs) seq →
          List.Chain' (adjI certs) (chainWalk certs fuel seq cur)) := by
  intro fuel
  induction fuel with
  | zero =>
    intro seq cur _
    exact ⟨⟨[], (List.append_nil seq).symm⟩, fun h => h,
      fun i hi => Or.inl hi, fun h => h⟩
  | succ fuel ih =>
    intro seq cur hlast
    rw [chainWalk]
    by_cases hss : (certs.getD cur default).issuer = (certs.getD cur default).subject
    · rw [if_pos hss]
      exact ⟨⟨[], (List.append_nil seq).symm⟩, fun h => h,
        fun i hi => Or.inl hi, fun h => h⟩
    · rw [if_neg hss]
      cases hsi : subjIdx certs (certs.getD cur default).issuer with
      | none =>
        exact ⟨⟨[], (List.append_nil seq).symm⟩, fun h => h,
          fun i hi => Or.inl hi, fun h => h⟩
      | some n =>
        dsimp only
        by_cases hmem : n ∈ seq
        · rw [if_pos hmem]
          exact ⟨⟨[], (List.append_nil seq).symm⟩, fun h => h,
            fun i hi => Or.inl hi, fun h => h⟩
        · rw [if_neg hmem]
          obtain ⟨hn, hsubj⟩ := subjIdx_some hsi
          obtain ⟨hpre, hnd, hlt, hadj⟩ :=
            ih (seq ++ [n]) n (List.getLast?_concat seq)
          refine ⟨?_, ?_, ?_, ?_⟩
          · obtain ⟨ext, hext⟩ := hpre
            exact ⟨n :: ext, by rw [hext, List.append_assoc]; rfl⟩
          · intro hseqnd
            exact hnd (by
              rw [List.nodup_append]
              exact ⟨hseqnd, List.nodup_singleton n,
                by simpa using fun h => hmem h⟩)
          · intro i hi
            rcases hlt i hi with hi' | hi'
            · rcases List.mem_append.1 hi' with hi'' | hi''
              · exact Or.inl hi''
              · simp only [List.mem_singleton] at hi''
                subst hi''
                exact Or.inr hn
            · exact Or.inr hi'
          · intro hchain
            apply hadj
            rw [List.chain'_append]
            refine ⟨hchain, List.chain'_singleton n, ?_⟩
            intro x hx y hy
            rw [hlast] at hx
            simp only [List.head?_cons, Option.mem_def, Option.some_inj] at hx hy
            subst hx
            subst hy
            show (certs.getD cur default).issuer = (certs.getD n default).subject
            exact hsubj.symm

lemma leafIdx_lt {certs : List Cert} (h : certs ≠ []) :
    leafIdx certs < certs.length := by
  rw [leafIdx]
  cases hf : firstIdxP (isLeafCandidate certs) certs with
  | none => simpa using List.length_pos.2 h
  | some i => simpa using (firstIdxP_some hf).1

/-- The parts of `chainWalk_master` specialised to the top-level call of
`order_chain_leaf_to_root`. -/
lemma order_seq_facts (certs : List Cert) (h : certs ≠ []) :
    (order_chain_leaf_to_root certs).1 ≠ []
    ∧ (order_chain_leaf_to_root certs).1.Nodup
    ∧ (∀ i ∈ (order_chain_leaf_to_root certs).1, i < certs.length)
    ∧ List.Chain' (adjI certs) (order_chain_leaf_to_root certs).1 := by
  have hm := chainWalk_master certs certs.length [leafIdx certs]
    (leafIdx certs) rfl
  obtain ⟨⟨ext, hext⟩, hnd, hlt, hadj⟩ := hm
  rw [order_chain_leaf_to_root]
  refine ⟨?_, hnd (List.nodup_singleton _), ?_, hadj (List.chain'_singleton _)⟩
  · simp only [hext]
    exact List.cons_ne_nil _ _
  · intro i hi
    rcases hlt i hi with hi' | hi'
    · simp only [List.mem_singleton] at hi'
      subst hi'
      exact leafIdx_lt h
    · exact hi'

/-- `(range l.length).map (l.getD · d) = l`. -/
lemma map_getD_range (l : List Cert) :
    (List.range l.length).map (fun i => l.getD i default) = l := by
  apply List.ext_getElem
  · simp
  · intro i h1 h2
    simp only [List.getElem_map, List.getElem_range]
    exact List.getD_eq_getElem l default h2

/-! ## C10: the orderer partitions the input -/

/-- C10: for every non-empty input, the ordered and unused index sequences
partition the input positions: together they are a permutation of all
input indices (so the two are disjoint, every input certificate lands in
exactly one, and the ordered sequence has no duplicates), and the ordered
sequence is non-empty. -/
theorem order_chain_partitions (certs : List Cert) (h : certs ≠ []) :
    ((order_chain_leaf_to_root certs).1
        ++ (order_chain_leaf_to_root certs).2).Perm
      (List.range certs.length)
    ∧ (order_chain_leaf_to_root certs).1.Nodup
    ∧ (order_chain_leaf_to_root certs).1 ≠ [] := by
  obtain ⟨hne, hnd, hlt, _⟩ := order_seq_facts certs h
  refine ⟨?_, hnd, hne⟩
  have hund : (order_chain_leaf_to_root certs).2
      = (List.range certs.length).filter
          (fun i => i ∉ (order_chain_leaf_to_root certs).1) := by
    rw [order_chain_leaf_to_root]
  have hndapp : ((order_chain_leaf_to_root certs).1
      ++ (order_chain_leaf_to_root certs).2).Nodup := by
    rw [hund, List.nodup_append]
    refine ⟨hnd, List.Nodup.filter _ (List.nodup_range certs.length), ?_⟩
    intro i hi hifil
    have := List.of_mem_filter hifil
    simp only [decide_not, Bool.not_eq_true', decide_eq_false_iff_not] at this
    exact this hi
  rw [List.perm_ext_iff_of_nodup hndapp (List.nodup_range certs.length)]
  intro a
  constructor
  · intro ha
    rcases List.mem_append.1 ha with ha' | ha'
    · exact List.mem_range.2 (hlt a ha')
    · exact List.mem_of_mem_filter (hund ▸ ha')
  · intro ha
    by_cases hseq : a ∈ (order_chain_leaf_to_root certs).1
    · exact List.mem_append.2 (Or.inl hseq)
    · refine List.mem_append.2 (Or.inr ?_)
      rw [hund]
      exact List.mem_filter.2 ⟨ha, by simpa using hseq⟩

/-- Witness for C10 on the three-certificate scenario of the spec. -/
theorem order_chain_partitions_witness :
    (((order_chain_leaf_to_root
        [⟨[1], [0], []⟩, ⟨[2], [1], []⟩, ⟨[0], [0], []⟩]).1
      ++ (order_chain_leaf_to_root
        [⟨[1], [0], []⟩, ⟨[2], [1], []⟩, ⟨[0], [0], []⟩]).2).Perm
        (List.range 3))
    ∧ (order_chain_leaf_to_root
        [⟨[1], [0], []⟩, ⟨[2], [1], []⟩, ⟨[0], [0], []⟩]).1.Nodup
    ∧ (order_chain_leaf_to_root
        [⟨[1], [0], []⟩, ⟨[2], [1], []⟩, ⟨[0], [0], []⟩]).1 ≠ [] :=
  order_chain_partitions [⟨[1], [0], []⟩, ⟨[2], [1], []⟩, ⟨[0], [0], []⟩]
    (by decide)

/-! ## C4: unrelated certificates end up unused, in input order -/

/-- C4: every input certificate sharing no DN with any member of the
selected chain appears in the unused sequence and never in the ordered
sequence, and the unused sequence lists its certificates in the original
input order (it is a sublist of the input). -/
theorem order_unrelated_in_unused (certs : List Cert) (_h : certs ≠ [])
    (c : Cert) (hc : c ∈ certs)
    (hno : ∀ m ∈ orderedCerts certs,
      c.subject ≠ m.subject ∧ c.subject ≠ m.issuer
      ∧ c.issuer ≠ m.subject ∧ c.issuer ≠ m.issuer) :
    c ∈ unusedCerts certs ∧ c ∉ orderedCerts certs
    ∧ (unusedCerts certs).Sublist certs := by
  have hnotin : c ∉ orderedCerts certs := by
    intro hmem
    exact (hno c hmem).1 rfl
  have hsub : (unusedCerts certs).Sublist certs := by
    rw [unusedCerts]
    have h1 : (order_chain_leaf_to_root certs).2
        = (List.range certs.length).filter
            (fun i => i ∉ (order_chain_leaf_to_root certs).1) := by
      rw [order_chain_leaf_to_root]
    rw [h1]
    have h2 := List.Sublist.map (fun i => certs.getD i default)
      (List.filter_sublist (l := List.range certs.length)
        (p := fun i => i ∉ (order_chain_leaf_to_root certs).1))
    rwa [map_getD_range] at h2
  refine ⟨?_, hnotin, hsub⟩
  obtain ⟨i, hi, hci⟩ := List.mem_iff_getElem.1 hc
  have hgd : certs.getD i default = c := by
    rw [List.getD_eq_getElem certs default hi, hci]
  by_cases hseq : i ∈ (order_chain_leaf_to_root certs).1
  · exact absurd (hgd ▸ List.mem_map_of_mem _ hseq) hnotin
  · rw [unusedCerts]
    have h1 : i ∈ (order_chain_leaf_to_root certs).2 := by
      have h2 : (order_chain_leaf_to_root certs).2
          = (List.range certs.length).filter
              (fun j => j ∉ (order_chain_leaf_to_root certs).1) := by
        rw [order_chain_leaf_to_root]
      rw [h2]
      exact List.mem_filter.2 ⟨List.mem_range.2 hi, by simpa using hseq⟩
    exact hgd ▸ List.mem_map_of_mem _ h1

/-- Witness for C4 on the spec's unrelated-root scenario: OtherRoot with
DNs `[3]` shares no DN with the selected Leaf→Interm→Root chain. -/
theorem order_unrelated_in_unused_witness :
    (⟨[3], [3], []⟩ : Cert) ∈ unusedCerts
        [⟨[2], [1], []⟩, ⟨[3], [3], []⟩, ⟨[1], [0], []⟩, ⟨[0], [0], []⟩]
    ∧ (⟨[3], [3], []⟩ : Cert) ∉ orderedCerts
        [⟨[2], [1], []⟩, ⟨[3], [3], []⟩, ⟨[1], [0], []⟩, ⟨[0], [0], []⟩]
    ∧ (unusedCerts
        [⟨[2], [1], []⟩, ⟨[3], [3], []⟩, ⟨[1], [0], []⟩, ⟨[0], [0], []⟩]).Sublist
        [⟨[2], [1], []⟩, ⟨[3], [3], []⟩, ⟨[1], [0], []⟩, ⟨[0], [0], []⟩] :=
  order_unrelated_in_unused
    [⟨[2], [1], []⟩, ⟨[3], [3], []⟩, ⟨[1], [0], []⟩, ⟨[0], [0], []⟩]
    (by decide) ⟨[3], [3], []⟩ (by decide) (by decide)

/-! ## AIA bundle-builder lemmas -/

lemma findIssuer_urls (fetch : String → Option (List Cert)) (dn : DN) :
    ∀ (urls : List String) (url : String),
      url ∈ (findIssuer fetch dn urls).2 → url ∈ urls := by
  intro urls
  induction urls with
  | nil => intro url h; exact absurd h (List.not_mem_nil url)
  | cons u rest ih =>
    intro url h
    simp only [findIssuer] at h
    cases hf : ((fetch u).getD []).find? (fun c => c.subject = dn) with
    | some c =>
      rw [hf] at h
      dsimp only at h
      simp only [List.mem_singleton] at h
      subst h
      exact List.mem_cons_self _ rest
    | none =>
      rw [hf] at h
      dsimp only at h
      rcases List.mem_cons.1 h with rfl | h'
      · exact List.mem_cons_self url rest
      · exact List.mem_cons_of_mem u (ih url h')

lemma findIssuer_subject (fetch : String → Option (List Cert)) (dn : DN) :
    ∀ (urls : List String) (c : Cert),
      (findIssuer fetch dn urls).1 = some c → c.subject = dn := by
  intro urls
  induction urls with
  | nil => intro c h; exact absurd h (by simp [findIssuer])
  | cons u rest ih =>
    intro c h
    simp only [findIssuer] at h
    cases hf : ((fetch u).getD []).find? (fun c => c.subject = dn) with
    | some c' =>
      rw [hf] at h
      dsimp only at h
      rw [Option.some_inj] at h
      subst h
      simpa using List.find?_some hf
    | none =>
      rw [hf] at h
      dsimp only at h
      exact ih c h

/-- Master invariant of the bundle-builder loop: the chain only grows, keeps
distinct subject DNs, keeps every non-final element non-self-issued, keeps
the issuer→subject adjacency, and every fetched URL comes from the AIA of a
non-self-issued chain element. -/
lemma bundleLoop_master (fetch : String → Option (List Cert)) :
    ∀ (fuel : Nat) (chain : List Cert) (seen : List DN) (trace : List String),
      chain ≠ [] →
      ((chain.map Cert.subject).Nodup) →
      (∀ c ∈ chain, c.subject ∈ seen) →
      (∀ c ∈ chain.dropLast, is_self_issued c = false) →
      List.Chain' (fun a b => a.issuer = b.subject) chain →
      (∃ ext, (bundleLoop fetch fuel chain seen trace).1 = chain ++ ext)
      ∧ ((bundleLoop fetch fuel chain seen trace).1.map Cert.subject).Nodup
      ∧ (∀ c ∈ (bundleLoop fetch fuel chain seen trace).1.dropLast,
          is_self_issued c = false)
      ∧ List.Chain' (fun a b => a.issuer = b.subject)
          (bundleLoop fetch fuel chain seen trace).1
      ∧ (∀ url ∈ (bundleLoop fetch fuel chain seen trace).2,
          url ∈ trace
          ∨ ∃ c ∈ (bundleLoop fetch fuel chain seen trace).1,
              is_self_issued c = false ∧ url ∈ c.aia) := by
  intro fuel
  induction fuel with
  | zero =>
    intro chain seen trace _ hnd _ hdl hch
    exact ⟨⟨[], (List.append_nil chain).symm⟩, hnd, hdl, hch,
      fun url hu => Or.inl hu⟩
  | succ fuel ih =>
    intro chain seen trace hne hnd hseen hdl hch
    have hlast : chain.getLastD default = chain.getLast hne := by
      rw [List.getLastD_eq_getLast? default chain,
        List.getLast?_eq_getLast chain hne]
      rfl
    have hcurmem : chain.getLastD default ∈ chain := by
      rw [hlast]; exact List.getLast_mem hne
    rw [bundleLoop]
    by_cases hss : is_self_issued (chain.getLastD default) = true
    · rw [if_pos hss]
      exact ⟨⟨[], (List.append_nil chain).symm⟩, hnd, hdl, hch,
        fun url hu => Or.inl hu⟩
    · rw [if_neg hss]
      have hssf : is_self_issued (chain.getLastD default) = false :=
        Bool.eq_false_iff.2 hss
      by_cases haia : (chain.getLastD default).aia = []
      · rw [if_pos haia]
        exact ⟨⟨[], (List.append_nil chain).symm⟩, hnd, hdl, hch,
          fun url hu => Or.inl hu⟩
      · rw [if_neg haia]
        dsimp only
        have htr : ∀ url ∈ trace ++ (findIssuer fetch
            (chain.getLastD default).issuer (chain.getLastD default).aia).2,
            url ∈ trace ∨ ∃ c ∈ chain, is_self_issued c = false ∧ url ∈ c.aia := by
          intro url hu
          rcases List.mem_append.1 hu with hu' | hu'
          · exact Or.inl hu'
          · exact Or.inr ⟨chain.getLastD default, hcurmem, hssf,
              findIssuer_urls fetch _ _ url hu'⟩
        cases hr1 : (findIssuer fetch (chain.getLastD default).issuer
            (chain.getLastD default).aia).1 with
        | none =>
          dsimp only
          exact ⟨⟨[], (List.append_nil chain).symm⟩, hnd, hdl, hch, htr⟩
        | some issuer =>
          dsimp only
          by_cases hmem : issuer.subject ∈ seen
          · rw [if_pos hmem]
            exact ⟨⟨[], (List.append_nil chain).symm⟩, hnd, hdl, hch, htr⟩
          · rw [if_neg hmem]
            have hsubj : issuer.subject = (chain.getLastD default).issuer :=
              findIssuer_subject fetch _ _ issuer hr1
            have hnotin : issuer.subject ∉ chain.map Cert.subject := by
              intro hin
              obtain ⟨d, hd, hds⟩ := List.mem_map.1 hin
              exact hmem (hds ▸ hseen d hd)
            have hnd' : ((chain ++ [issuer]).map Cert.subject).Nodup := by
              rw [List.map_append, List.nodup_append]
              refine ⟨hnd, List.nodup_singleton _, ?_⟩
              intro s hs1 hs2
              simp only [List.map_cons, List.map_nil, List.mem_singleton] at hs2
              subst hs2
              exact hnotin hs1
            have hseen' : ∀ c ∈ chain ++ [issuer],
                c.subject ∈ issuer.subject :: seen := by
              intro d hd
              rcases List.mem_append.1 hd with hd' | hd'
              · exact List.mem_cons_of_mem _ (hseen d hd')
              · simp only [List.mem_singleton] at hd'
                subst hd'
                exact List.mem_cons_self _ _
            have hall : ∀ c ∈ chain, is_self_issued c = false := by
              intro d hd
              rw [← List.dropLast_append_getLast hne] at hd
              rcases List.mem_append.1 hd with hd' | hd'
              · exact hdl d hd'
              · simp only [List.mem_singleton] at hd'
                subst hd'
                rw [← hlast]
                exact hssf
            have hdl' : ∀ c ∈ (chain ++ [issuer]).dropLast,
                is_self_issued c = false := by
              rw [List.dropLast_concat]
              exact hall
            have hch' : List.Chain' (fun a b => a.issuer = b.subject)
                (chain ++ [issuer]) := by
              rw [List.chain'_append]
              refine ⟨hch, List.chain'_singleton issuer, ?_⟩
              intro x hx y hy
              rw [List.getLast?_eq_getLast chain hne] at hx
              simp only [List.head?_cons, Option.mem_def, Option.some_inj]
                at hx hy
              subst hx
              subst hy
              rw [← hlast]
              exact hsubj.symm
            obtain ⟨⟨ext, hext⟩, ihnd, ihdl, ihch, ihtr⟩ :=
              ih (chain ++ [issuer]) (issuer.subject :: seen)
                (trace ++ (findIssuer fetch (chain.getLastD default).issuer
                  (chain.getLastD default).aia).2)
                (by simp) hnd' hseen' hdl' hch'
            refine ⟨⟨issuer :: ext, by rw [hext, List.append_assoc]; rfl⟩,
              ihnd, ihdl, ihch, ?_⟩
            intro url hu
            rcases ihtr url hu with hu' | hu'
            · rcases htr url hu' with hu'' | ⟨d, hd, hdss, hdaia⟩
              · exact Or.inl hu''
              · refine Or.inr ⟨d, ?_, hdss, hdaia⟩
                rw [hext]
                exact List.mem_append.2 (Or.inl (List.mem_append.2 (Or.inl hd)))
            · exact Or.inr hu'

/-! ## C2: builder invariants under any network behaviour -/

/-- C2: for every leaf and every network behaviour (the all-failures oracle
included), the assembled bundle starts with the leaf, never contains two
certificates with the same subject DN, and has length at least 1.  The
builder is a total function into a chain — network failures are absorbed
inside `findIssuer` and never surface as errors. -/
theorem build_bundle_invariants (fetch : String → Option (List Cert))
    (leaf : Cert) (fuel : Nat) :
    (build_bundle_from_leaf fetch leaf fuel).head? = some leaf
    ∧ ((build_bundle_from_leaf fetch leaf fuel).map Cert.subject).Nodup
    ∧ 1 ≤ (build_bundle_from_leaf fetch leaf fuel).length := by
  obtain ⟨⟨ext, hext⟩, hnd, _, _, _⟩ :=
    bundleLoop_master fetch fuel [leaf] [leaf.subject] []
      (List.cons_ne_nil leaf []) (by simp) (by simp) (by simp)
      (List.chain'_singleton leaf)
  rw [build_bundle_from_leaf, build_bundle_traced]
  refine ⟨?_, hnd, ?_⟩
  · rw [hext]
    rfl
  · rw [hext]
    simp

/-! ## C6: the builder stops at the first self-issued certificate -/

/-- C6: at most the final element of the assembled chain is self-issued,
and every URL the builder fetches comes from the AIA extension of a
non-self-issued chain element — so no fetch is ever performed for a
self-issued certificate, and nothing is appended past it. -/
theorem build_bundle_stops_at_root (fetch : String → Option (List Cert))
    (leaf : Cert) (fuel : Nat) :
    (∀ c ∈ (build_bundle_traced fetch leaf fuel).1.dropLast,
        is_self_issued c = false)
    ∧ (∀ url ∈ (build_bundle_traced fetch leaf fuel).2,
        ∃ c ∈ (build_bundle_traced fetch leaf fuel).1,
          is_self_issued c = false ∧ url ∈ c.aia) := by
  obtain ⟨_, _, hdl, _, htr⟩ :=
    bundleLoop_master fetch fuel [leaf] [leaf.subject] []
      (List.cons_ne_nil leaf []) (by simp) (by simp) (by simp)
      (List.chain'_singleton leaf)
  rw [build_bundle_traced]
  refine ⟨hdl, ?_⟩
  intro url hu
  rcases htr url hu with h' | h'
  · exact absurd h' (List.not_mem_nil url)
  · exact h'

/-- Witness for C6: a network where `u1` answers with the self-signed
issuer; the builder fetches `u0` and `u1` only, and only the final chain
element is self-issued. -/
theorem build_bundle_stops_at_root_witness :
    is_self_issued (⟨[0], [1], ["u0", "u1", "u2"]⟩ : Cert) = false
    ∧ ∃ c ∈ (build_bundle_traced
        (fun u => if u = "u1" then some [⟨[1], [1], []⟩] else none)
        ⟨[0], [1], ["u0", "u1", "u2"]⟩ 3).1,
        is_self_issued c = false ∧ "u0" ∈ c.aia :=
  ⟨(build_bundle_stops_at_root
      (fun u => if u = "u1" then some [⟨[1], [1], []⟩] else none)
      ⟨[0], [1], ["u0", "u1", "u2"]⟩ 3).1
      ⟨[0], [1], ["u0", "u1", "u2"]⟩ (by decide),
    (build_bundle_stops_at_root
      (fun u => if u = "u1" then some [⟨[1], [1], []⟩] else none)
      ⟨[0], [1], ["u0", "u1", "u2"]⟩ 3).2 "u0" (by decide)⟩

/-! ## C9: exact issuer→subject adjacency in both outputs -/

/-- C9: in every chain produced by the orderer and every chain produced by
the AIA builder, each consecutive pair satisfies exactly: the issuer DN of
entry i is byte-equal to the subject DN of entry i+1. -/
theorem chain_adjacency_exact (certs : List Cert) (h : certs ≠ [])
    (fetch : String → Option (List Cert)) (leaf : Cert) (fuel : Nat) :
    List.Chain' (fun a b => a.issuer = b.subject) (orderedCerts certs)
    ∧ List.Chain' (fun a b => a.issuer = b.subject)
        (build_bundle_from_leaf fetch leaf fuel) := by
  constructor
  · have hadj := (order_seq_facts certs h).2.2.2
    rw [orderedCerts, List.chain'_map]
    exact hadj
  · obtain ⟨_, _, _, hch, _⟩ :=
      bundleLoop_master fetch fuel [leaf] [leaf.subject] []
        (List.cons_ne_nil leaf []) (by simp) (by simp) (by simp)
        (List.chain'_singleton leaf)
    rw [build_bundle_from_leaf, build_bundle_traced]
    exact hch

/-- Witness for C9 on the spec's three-certificate scenario and an
all-failing network. -/
theorem chain_adjacency_exact_witness :
    List.Chain' (fun a b => a.issuer = b.subject)
      (orderedCerts [⟨[1], [0], []⟩, ⟨[2], [1], []⟩, ⟨[0], [0], []⟩])
    ∧ List.Chain' (fun a b => a.issuer = b.subject)
        (build_bundle_from_leaf (fun _ => none) ⟨[2], [1], []⟩ 4) :=
  chain_adjacency_exact [⟨[1], [0], []⟩, ⟨[2], [1], []⟩, ⟨[0], [0], []⟩]
    (by decide) (fun _ => none) ⟨[2], [1], []⟩ 4

/-! ## Index/value correspondence lemmas for duplicate-free inputs -/

lemma getD_indexOf {l : List Cert} {v : Cert} (hv : v ∈ l) :
    l.getD (l.indexOf v) default = v := by
  have hlt := List.indexOf_lt_length.2 hv
  rw [List.getD_eq_getElem l default hlt]
  exact List.getElem_indexOf hlt

lemma indexOf_inj_mem {l : List Cert} {x y : Cert} (hx : x ∈ l) (hy : y ∈ l)
    (h : l.indexOf x = l.indexOf y) : x = y := by
  have h1 := getD_indexOf hx
  rw [h, getD_indexOf hy] at h1
  exact h1.symm

lemma nodup_indexOf_getD {l : List Cert} (hnd : l.Nodup) {i : Nat}
    (hi : i < l.length) : l.indexOf (l.getD i default) = i := by
  have hmem : l.getD i default ∈ l := by
    rw [List.getD_eq_getElem l default hi]
    exact List.getElem_mem hi
  have hlt := List.indexOf_lt_length.2 hmem
  have h1 : l.get ⟨l.indexOf (l.getD i default), hlt⟩ = l.get ⟨i, hi⟩ := by
    simp only [List.get_eq_getElem]
    rw [List.getElem_indexOf hlt, List.getD_eq_getElem l default hi]
  have h2 := hnd.get_inj_iff.1 h1
  exact congrArg Fin.val h2

lemma subject_inj_mem {certs : List Cert}
    (hnd : (certs.map Cert.subject).Nodup) {x y : Cert}
    (hx : x ∈ certs) (hy : y ∈ certs) (h : x.subject = y.subject) : x = y := by
  obtain ⟨i, hi, hxi⟩ := List.mem_iff_getElem.1 hx
  obtain ⟨j, hj, hyj⟩ := List.mem_iff_getElem.1 hy
  have hmi : i < (certs.map Cert.subject).length := by simpa using hi
  have hmj : j < (certs.map Cert.subject).length := by simpa using hj
  have hsij : (certs.map Cert.subject).get ⟨i, hmi⟩
      = (certs.map Cert.subject).get ⟨j, hmj⟩ := by
    simp only [List.get_eq_getElem, List.getElem_map]
    rw [hxi, hyj]
    exact h
  have := congrArg Fin.val (hnd.get_inj_iff.1 hsij)
  simp only at this
  rw [← hxi, ← hyj]
  subst this
  rfl

lemma firstIdxP_eq_indexOf {p : Cert → Bool} :
    ∀ {l : List Cert} {v : Cert}, v ∈ l →
      (∀ c ∈ l, (p c = true ↔ c = v)) →
      firstIdxP p l = some (l.indexOf v) := by
  intro l
  induction l with
  | nil => intro v hv _; exact absurd hv (List.not_mem_nil v)
  | cons c rest ih =>
    intro v hv hiff
    by_cases hcv : c = v
    · subst hcv
      rw [firstIdxP, if_pos ((hiff c (List.mem_cons_self c rest)).2 rfl),
        List.indexOf_cons_self]
    · have hpc : ¬ p c = true :=
        fun hp => hcv ((hiff c (List.mem_cons_self c rest)).1 hp)
      have hvrest : v ∈ rest := by
        rcases List.mem_cons.1 hv with h' | h'
        · exact absurd h'.symm hcv
        · exact h'
      rw [firstIdxP, if_neg hpc,
        ih hvrest (fun d hd => hiff d (List.mem_cons_of_mem c hd)),
        List.indexOf_cons_ne rest hcv]
      rfl

lemma subjIdx_eq_indexOf {certs : List Cert}
    (hnd : (certs.map Cert.subject).Nodup) {v : Cert} (hv : v ∈ certs) :
    subjIdx certs v.subject = some (certs.indexOf v) :=
  firstIdxP_eq_indexOf hv (fun c hc =>
    ⟨fun h => subject_inj_mem hnd hc hv (by simpa using h),
     fun h => by subst h; simp⟩)

lemma subjIdx_eq_none {certs : List Cert} {dn : DN}
    (h : ∀ c ∈ certs, c.subject ≠ dn) : subjIdx certs dn = none := by
  cases hs : subjIdx certs dn with
  | none => rfl
  | some n =>
    obtain ⟨hlt, hsub⟩ := subjIdx_some hs
    have hmem : certs.getD n default ∈ certs := by
      rw [List.getD_eq_getElem certs default hlt]
      exact List.getElem_mem hlt
    exact absurd hsub (h _ hmem)

/-! ## Structure of a linear chain (for the amended C1) -/

/-- In a linear chain ending at a self-signed root, every issuer DN is a
subject DN of the tail (or, for a one-element chain, the root's own
subject). -/
lemma chain_issuers_covered :
    ∀ (tl : List Cert) (hd : Cert),
      List.Chain' (fun a b => a.issuer = b.subject) (hd :: tl) →
      ((hd :: tl).getLast (List.cons_ne_nil hd tl)).issuer
        = ((hd :: tl).getLast (List.cons_ne_nil hd tl)).subject →
      ∀ x ∈ (hd :: tl).map Cert.issuer,
        x ∈ tl.map Cert.subject ∨ (tl = [] ∧ x = hd.subject) := by
  intro tl
  induction tl with
  | nil =>
    intro hd _ hroot x hx
    simp only [List.map_cons, List.map_nil, List.mem_singleton] at hx
    subst hx
    simp only [List.getLast_singleton] at hroot
    exact Or.inr ⟨rfl, hroot⟩
  | cons r tl' ih =>
    intro hd hch hroot x hx
    rcases List.mem_cons.1 hx with hx' | hx'
    · have hhd : hd.issuer = r.subject := (List.chain'_cons.1 hch).1
      subst hx'
      rw [hhd]
      exact Or.inl (by simp)
    · have hch' : List.Chain' (fun a b => a.issuer = b.subject) (r :: tl') :=
        (List.chain'_cons.1 hch).2
      have hroot' : ((r :: tl').getLast (List.cons_ne_nil r tl')).issuer
          = ((r :: tl').getLast (List.cons_ne_nil r tl')).subject := by
        rwa [List.getLast_cons (List.cons_ne_nil r tl')] at hroot
      rcases ih r hch' hroot' x hx' with h' | ⟨htl, hx''⟩
      · exact Or.inl (List.mem_cons_of_mem _ h')
      · subst htl
        subst hx''
        exact Or.inl (by simp)

/-- In a linear chain, every tail subject DN is an issuer DN of the chain. -/
lemma chain_tail_subjects_are_issuers :
    ∀ (tl : List Cert) (hd : Cert),
      List.Chain' (fun a b => a.issuer = b.subject) (hd :: tl) →
      ∀ x ∈ tl.map Cert.subject, x ∈ (hd :: tl).map Cert.issuer := by
  intro tl
  induction tl with
  | nil => intro hd _ x hx; exact absurd hx (by simp)
  | cons r tl' ih =>
    intro hd hch x hx
    rcases List.mem_cons.1 hx with hx' | hx'
    · have hhd : hd.issuer = r.subject := (List.chain'_cons.1 hch).1
      subst hx'
      rw [← hhd]
      exact List.mem_cons_self _ _
    · have hch' : List.Chain' (fun a b => a.issuer = b.subject) (r :: tl') :=
        (List.chain'_cons.1 hch).2
      exact List.mem_cons_of_mem _ (ih r hch' x hx')

/-- The walk of `order_chain_leaf_to_root`, started on the chain prefix
`pre ++ [c]`, follows a linear chain to its end. -/
lemma chainWalk_along (certs : List Cert)
    (hnd : (certs.map Cert.subject).Nodup) :
    ∀ (rest pre : List Cert) (c : Cert),
      (∀ x ∈ pre ++ c :: rest, x ∈ certs) →
      (((pre ++ c :: rest).map Cert.subject).Nodup) →
      List.Chain' (fun a b => a.issuer = b.subject) (pre ++ c :: rest) →
      ((c :: rest).getLast (List.cons_ne_nil c rest)).issuer
        = ((c :: rest).getLast (List.cons_ne_nil c rest)).subject →
      chainWalk certs (rest.length + 1)
          ((pre ++ [c]).map (fun x => certs.indexOf x)) (certs.indexOf c)
        = (pre ++ c :: rest).map (fun x => certs.indexOf x) := by
  intro rest
  induction rest with
  | nil =>
    intro pre c hmem _ _ hroot
    have hc : c ∈ certs := hmem c (by simp)
    simp only [List.getLast_singleton] at hroot
    rw [chainWalk]
    rw [getD_indexOf hc, if_pos hroot]
  | cons r rest' ih =>
    intro pre c hmem hndc hch hroot
    have hc : c ∈ certs := hmem c (by simp)
    have hr : r ∈ certs := hmem r (by simp)
    have hchtail : List.Chain' (fun a b => a.issuer = b.subject)
        (c :: r :: rest') := (List.chain'_append.1 hch).2.1
    have hcr : c.issuer = r.subject := (List.chain'_cons.1 hchtail).1
    have hcs : c.subject ≠ r.subject := by
      have hndcr : ((c :: r :: rest').map Cert.subject).Nodup := by
        have h0 := hndc
        rw [List.map_append, List.nodup_append] at h0
        exact h0.2.1
      rw [List.map_cons, List.nodup_cons] at hndcr
      intro h
      exact hndcr.1 (h ▸ List.mem_cons_self r.subject (rest'.map Cert.subject) :
        c.subject ∈ (r :: rest').map Cert.subject)
    have hnself : ¬ (c.issuer = c.subject) :=
      fun h => hcs (h.symm.trans hcr)
    have hassoc : (pre ++ [c]) ++ r :: rest' = pre ++ c :: r :: rest' := by
      simp
    have hrnot : r ∉ pre ++ [c] := by
      intro hrin
      have h1 : r.subject ∈ (pre ++ [c]).map Cert.subject :=
        List.mem_map_of_mem _ hrin
      have hndc' : (((pre ++ [c]) ++ r :: rest').map Cert.subject).Nodup := by
        rw [hassoc]
        exact hndc
      rw [List.map_append, List.nodup_append] at hndc'
      exact hndc'.2.2 h1 (by simp)
    have hguard : certs.indexOf r
        ∉ (pre ++ [c]).map (fun x => certs.indexOf x) := by
      intro hin
      obtain ⟨x, hx, hxi⟩ := List.mem_map.1 hin
      have hxc : x ∈ certs := by
        apply hmem
        rcases List.mem_append.1 hx with h' | h'
        · exact List.mem_append.2 (Or.inl h')
        · simp only [List.mem_singleton] at h'
          subst h'
          exact List.mem_append.2 (Or.inr (List.mem_cons_self _ _))
      have := indexOf_inj_mem hxc hr hxi
      subst this
      exact hrnot hx
    rw [chainWalk]
    rw [getD_indexOf hc, if_neg hnself, hcr, subjIdx_eq_indexOf hnd hr]
    dsimp only
    rw [if_neg hguard]
    have hmem' : ∀ x ∈ (pre ++ [c]) ++ r :: rest', x ∈ certs := by
      rw [hassoc]
      exact hmem
    have hndc' : (((pre ++ [c]) ++ r :: rest').map Cert.subject).Nodup := by
      rw [hassoc]
      exact hndc
    have hch' : List.Chain' (fun a b => a.issuer = b.subject)
        ((pre ++ [c]) ++ r :: rest') := by
      rw [hassoc]
      exact hch
    have hroot' : ((r :: rest').getLast (List.cons_ne_nil r rest')).issuer
        = ((r :: rest').getLast (List.cons_ne_nil r rest')).subject := by
      rwa [List.getLast_cons (List.cons_ne_nil r rest')] at hroot
    have hrec := ih (pre ++ [c]) r hmem' hndc' hch' hroot'
    rw [List.map_append] at hrec
    simp only [List.map_cons, List.map_nil] at hrec
    simp only [List.length_cons]
    rw [hrec, hassoc]

/-- On a permutation of a linear chain, the orderer picks the chain's head
as the leaf. -/
lemma leafIdx_linear (certs : List Cert) (hd : Cert) (tl : List Cert)
    (hperm : certs.Perm (hd :: tl))
    (hnd : ((hd :: tl).map Cert.subject).Nodup)
    (hch : List.Chain' (fun a b => a.issuer = b.subject) (hd :: tl))
    (hroot : ((hd :: tl).getLast (List.cons_ne_nil hd tl)).issuer
      = ((hd :: tl).getLast (List.cons_ne_nil hd tl)).subject) :
    leafIdx certs = certs.indexOf hd := by
  cases tl with
  | nil =>
    have hcerts : certs = [hd] := List.perm_singleton.1 hperm
    subst hcerts
    simp only [List.getLast_singleton] at hroot
    have hcand : isLeafCandidate [hd] hd = false := by
      simp [isLeafCandidate, hroot]
    rw [leafIdx, firstIdxP, if_neg (by rw [hcand]; exact Bool.false_ne_true),
      firstIdxP]
    rw [List.indexOf_cons_self]
    rfl
  | cons r tl' =>
    have hhd : hd ∈ certs := hperm.mem_iff.2 (List.mem_cons_self _ _)
    have hmemiff : ∀ x : DN, ((certs.map Cert.issuer).contains x = true
        ↔ x ∈ (hd :: r :: tl').map Cert.issuer) := by
      intro x
      have h1 : (certs.map Cert.issuer).contains x = true
          ↔ x ∈ certs.map Cert.issuer := by simp
      rw [h1, (hperm.map Cert.issuer).mem_iff]
    have hiff : ∀ c ∈ certs, (isLeafCandidate certs c = true ↔ c = hd) := by
      intro c hc
      have hcchain : c ∈ hd :: r :: tl' := hperm.mem_iff.1 hc
      constructor
      · intro hcand
        rcases List.mem_cons.1 hcchain with h' | h'
        · exact h'
        · exfalso
          have hsub : c.subject ∈ (r :: tl').map Cert.subject :=
            List.mem_map_of_mem _ h'
          have hiss : c.subject ∈ (hd :: r :: tl').map Cert.issuer :=
            chain_tail_subjects_are_issuers (r :: tl') hd hch c.subject hsub
          have hcont := (hmemiff c.subject).2 hiss
          rw [isLeafCandidate, hcont] at hcand
          exact Bool.false_ne_true hcand
      · intro hcd
        subst hcd
        rw [isLeafCandidate]
        by_cases hcont : (certs.map Cert.issuer).contains c.subject = true
        · exfalso
          have hiss := (hmemiff c.subject).1 hcont
          rcases chain_issuers_covered (r :: tl') c hch hroot c.subject hiss
            with h' | ⟨habs, _⟩
          · have hndc := hnd
            rw [List.map_cons, List.nodup_cons] at hndc
            exact hndc.1 h'
          · exact List.cons_ne_nil r tl' habs
        · rw [Bool.eq_false_iff.2 hcont]
          rfl
    rw [leafIdx, firstIdxP_eq_indexOf hhd hiff]
    rfl

/-! ## C1: ordering a complete linear chain -/

/-- The concrete input refuting C1 as stated: R is self-signed with subject
`[0]`, X shares R's subject but is issued by `[1]`, and Y, Z form a 2-cycle
feeding X.  Every certificate's issuer DN equals the subject DN of exactly
one other certificate and exactly one self-signed certificate exists, yet R
is left unused. -/
def cexCerts : List Cert :=
  [⟨[0], [1], []⟩, ⟨[0], [0], []⟩, ⟨[1], [2], []⟩, ⟨[2], [1], []⟩]

/-- Counterexample to C1 as stated: `cexCerts` satisfies the claim's
hypothesis — each certificate's issuer DN equals the subject DN of exactly
one other certificate of the set, and exactly one self-signed certificate
(the root) exists — but the ordering leaves a non-empty unused sequence
(the root itself), so the ordered sequence does not contain every input
certificate and does not end at the root. -/
theorem order_chain_complete_cex :
    (∀ i, i < cexCerts.length →
      ((List.range cexCerts.length).filter (fun j => j ≠ i
        ∧ (cexCerts.getD j default).subject
          = (cexCerts.getD i default).issuer)).length = 1)
    ∧ (cexCerts.filter is_self_issued).length = 1
    ∧ (order_chain_leaf_to_root cexCerts).2 ≠ [] := by
  decide

/-- C1 amended: when the input is a permutation of a single linear chain —
pairwise-distinct subject DNs, each link's issuer DN equal to the next
link's subject DN, ending at a self-signed root — the orderer returns
exactly that chain (every input certificate once, the self-signed root
last) and an empty unused sequence.  (The claim as stated admits inputs
with issuer/subject cycles disconnected from the root, on which the
ordering strands certificates; see the counterexample.) -/
theorem order_chain_linear (certs chain : List Cert)
    (hperm : certs.Perm chain)
    (hnd : (chain.map Cert.subject).Nodup)
    (hch : List.Chain' (fun a b => a.issuer = b.subject) chain)
    (hne : chain ≠ [])
    (hroot : (chain.getLast hne).issuer = (chain.getLast hne).subject) :
    orderedCerts certs = chain
    ∧ (order_chain_leaf_to_root certs).2 = [] := by
  cases chain with
  | nil => exact absurd rfl hne
  | cons hd tl =>
    have hndC : (certs.map Cert.subject).Nodup :=
      ((hperm.map Cert.subject).nodup_iff).2 hnd
    have hroot' : ((hd :: tl).getLast (List.cons_ne_nil hd tl)).issuer
        = ((hd :: tl).getLast (List.cons_ne_nil hd tl)).subject := hroot
    have hleaf : leafIdx certs = certs.indexOf hd :=
      leafIdx_linear certs hd tl hperm hnd hch hroot'
    have hmem : ∀ x ∈ ([] : List Cert) ++ hd :: tl, x ∈ certs := by
      intro x hx
      rw [List.nil_append] at hx
      exact hperm.mem_iff.2 hx
    have hwalk := chainWalk_along certs hndC tl [] hd hmem
      (by rw [List.nil_append]; exact hnd)
      (by rw [List.nil_append]; exact hch) hroot'
    simp only [List.nil_append, List.map_cons, List.map_nil] at hwalk
    have hlen : certs.length = tl.length + 1 := by
      rw [hperm.length_eq]
      rfl
    have hseq : (order_chain_leaf_to_root certs).1
        = (hd :: tl).map (fun x => certs.indexOf x) := by
      rw [order_chain_leaf_to_root]
      dsimp only
      rw [hleaf, hlen, List.map_cons]
      exact hwalk
    constructor
    · rw [orderedCerts, hseq, List.map_map]
      have heq : ∀ x ∈ hd :: tl,
          ((fun i => certs.getD i default) ∘ fun x => certs.indexOf x) x
            = id x :=
        fun x hx => getD_indexOf (hperm.mem_iff.2 hx)
      rw [List.map_congr_left heq, List.map_id]
    · have h2 : (order_chain_leaf_to_root certs).2
          = (List.range certs.length).filter
              (fun i => i ∉ (order_chain_leaf_to_root certs).1) := by
        rw [order_chain_leaf_to_root]
      rw [h2, List.filter_eq_nil_iff]
      intro i hi
      rw [List.mem_range] at hi
      have hgd : certs.getD i default ∈ certs := by
        rw [List.getD_eq_getElem certs default hi]
        exact List.getElem_mem hi
      have hinseq : i ∈ (order_chain_leaf_to_root certs).1 := by
        rw [hseq]
        refine List.mem_map.2 ⟨certs.getD i default, hperm.mem_iff.1 hgd, ?_⟩
        exact nodup_indexOf_getD (hndC.of_map _) hi
      simp only [decide_not, Bool.not_eq_true', decide_eq_false_iff_not,
        Decidable.not_not]
      exact hinseq

/-- Witness for the amended C1: the two-certificate chain leaf→root in
reversed input order is ordered back into the chain with nothing unused. -/
theorem order_chain_linear_witness :
    orderedCerts [⟨[1], [1], []⟩, ⟨[0], [1], []⟩]
      = [⟨[0], [1], []⟩, ⟨[1], [1], []⟩]
    ∧ (order_chain_leaf_to_root [⟨[1], [1], []⟩, ⟨[0], [1], []⟩]).2 = [] :=
  order_chain_linear [⟨[1], [1], []⟩, ⟨[0], [1], []⟩]
    [⟨[0], [1], []⟩, ⟨[1], [1], []⟩]
    (by decide) (by decide)
    (List.chain'_cons.2 ⟨by decide, List.chain'_singleton _⟩)
    (List.cons_ne_nil _ _) (by decide)

/-! ## C3: permutation stability of the ordering -/

lemma map_getD_map_indexOf {l vs : List Cert} (hm : ∀ x ∈ vs, x ∈ l) :
    (vs.map (fun x => l.indexOf x)).map (fun i => l.getD i default) = vs := by
  rw [List.map_map]
  have heq : ∀ x ∈ vs,
      ((fun i => l.getD i default) ∘ fun x => l.indexOf x) x = id x :=
    fun x hx => getD_indexOf (hm x hx)
  rw [List.map_congr_left heq, List.map_id]

lemma mem_map_indexOf_iff {l vs : List Cert} {w : Cert}
    (hm : ∀ x ∈ vs, x ∈ l) (hw : w ∈ l) :
    l.indexOf w ∈ vs.map (fun x => l.indexOf x) ↔ w ∈ vs := by
  constructor
  · intro hin
    obtain ⟨x, hx, hxi⟩ := List.mem_map.1 hin
    have := indexOf_inj_mem (hm x hx) hw hxi
    subst this
    exact hx
  · exact fun h => List.mem_map_of_mem _ h

/-- The issuer walk visits the same certificate values over any permutation
of a duplicate-free input. -/
lemma chainWalk_perm (certs certs' : List Cert) (hperm : certs'.Perm certs)
    (hnd : (certs.map Cert.subject).Nodup) :
    ∀ (fuel : Nat) (vs : List Cert) (v : Cert), v ∈ certs →
      (∀ x ∈ vs, x ∈ certs) →
      (chainWalk certs' fuel (vs.map (fun x => certs'.indexOf x))
          (certs'.indexOf v)).map (fun i => certs'.getD i default)
      = (chainWalk certs fuel (vs.map (fun x => certs.indexOf x))
          (certs.indexOf v)).map (fun i => certs.getD i default) := by
  have hnd' : (certs'.map Cert.subject).Nodup :=
    ((hperm.map Cert.subject).nodup_iff).2 hnd
  have hmem' : ∀ x ∈ certs, x ∈ certs' := fun x hx => hperm.mem_iff.2 hx
  intro fuel
  induction fuel with
  | zero =>
    intro vs v _ hvs
    rw [chainWalk, chainWalk, map_getD_map_indexOf hvs,
      map_getD_map_indexOf (fun x hx => hmem' x (hvs x hx))]
  | succ fuel ih =>
    intro vs v hv hvs
    have hv' : v ∈ certs' := hmem' v hv
    rw [chainWalk, chainWalk, getD_indexOf hv, getD_indexOf hv']
    by_cases hss : v.issuer = v.subject
    · rw [if_pos hss, if_pos hss, map_getD_map_indexOf hvs,
        map_getD_map_indexOf (fun x hx => hmem' x (hvs x hx))]
    · rw [if_neg hss, if_neg hss]
      by_cases hex : ∃ w ∈ certs, w.subject = v.issuer
      · obtain ⟨w, hw, hws⟩ := hex
        have hw' : w ∈ certs' := hmem' w hw
        have hs1 : subjIdx certs v.issuer = some (certs.indexOf w) := by
          rw [← hws]
          exact subjIdx_eq_indexOf hnd hw
        have hs2 : subjIdx certs' v.issuer = some (certs'.indexOf w) := by
          rw [← hws]
          exact subjIdx_eq_indexOf hnd' hw'
        rw [hs1, hs2]
        dsimp only
        by_cases hwvs : w ∈ vs
        · rw [if_pos ((mem_map_indexOf_iff hvs hw).2 hwvs),
            if_pos ((mem_map_indexOf_iff
              (fun x hx => hmem' x (hvs x hx)) hw').2 hwvs),
            map_getD_map_indexOf hvs,
            map_getD_map_indexOf (fun x hx => hmem' x (hvs x hx))]
        · rw [if_neg (fun hin => hwvs ((mem_map_indexOf_iff hvs hw).1 hin)),
            if_neg (fun hin => hwvs ((mem_map_indexOf_iff
              (fun x hx => hmem' x (hvs x hx)) hw').1 hin))]
          have hfw : vs.map (fun x => certs.indexOf x) ++ [certs.indexOf w]
              = (vs ++ [w]).map (fun x => certs.indexOf x) := by
            rw [List.map_append, List.map_cons, List.map_nil]
          have hfw' : vs.map (fun x => certs'.indexOf x) ++ [certs'.indexOf w]
              = (vs ++ [w]).map (fun x => certs'.indexOf x) := by
            rw [List.map_append, List.map_cons, List.map_nil]
          rw [hfw, hfw']
          refine ih (vs ++ [w]) w hw ?_
          intro x hx
          rcases List.mem_append.1 hx with h' | h'
          · exact hvs x h'
          · simp only [List.mem_singleton] at h'
            subst h'
            exact hw
      · have hnone : subjIdx certs v.issuer = none := by
          apply subjIdx_eq_none
          intro c hc hceq
          exact hex ⟨c, hc, hceq⟩
        have hnone' : subjIdx certs' v.issuer = none := by
          apply subjIdx_eq_none
          intro c hc hceq
          exact hex ⟨c, hperm.mem_iff.1 hc, hceq⟩
        rw [hnone, hnone']
        dsimp only
        rw [map_getD_map_indexOf hvs,
          map_getD_map_indexOf (fun x hx => hmem' x (hvs x hx))]

lemma getD_inj {l : List Cert} (hnd : l.Nodup) {i j : Nat}
    (hi : i < l.length) (hj : j < l.length)
    (h : l.getD i default = l.getD j default) : i = j := by
  have h1 := nodup_indexOf_getD hnd hi
  rw [h, nodup_indexOf_getD hnd hj] at h1
  exact h1.symm

/-- The unused certificates are, as a multiset, the input certificates that
do not occur in the ordered chain. -/
lemma unusedCerts_perm_filter (certs : List Cert) (h : certs ≠ [])
    (hvnd : certs.Nodup) :
    (unusedCerts certs).Perm
      (certs.filter (fun c => c ∉ orderedCerts certs)) := by
  obtain ⟨_, _, hlt, _⟩ := order_seq_facts certs h
  have hidx : (order_chain_leaf_to_root certs).2
      = (List.range certs.length).filter
          (fun i => i ∉ (order_chain_leaf_to_root certs).1) := by
    rw [order_chain_leaf_to_root]
  have hu_nd : (unusedCerts certs).Nodup := by
    rw [unusedCerts, hidx]
    apply List.Nodup.map_on
    · intro i hi j hj hij
      have hi' : i < certs.length :=
        List.mem_range.1 (List.mem_of_mem_filter hi)
      have hj' : j < certs.length :=
        List.mem_range.1 (List.mem_of_mem_filter hj)
      exact getD_inj hvnd hi' hj' hij
    · exact List.Nodup.filter _ (List.nodup_range certs.length)
  have hf_nd : (certs.filter (fun c => c ∉ orderedCerts certs)).Nodup :=
    hvnd.filter _
  rw [List.perm_ext_iff_of_nodup hu_nd hf_nd]
  intro x
  constructor
  · intro hx
    rw [unusedCerts, hidx] at hx
    obtain ⟨i, hi, hxi⟩ := List.mem_map.1 hx
    have hirange := List.mem_of_mem_filter hi
    have hi' : i < certs.length := List.mem_range.1 hirange
    have hinot : i ∉ (order_chain_leaf_to_root certs).1 := by
      have := List.of_mem_filter hi
      simpa using this
    have hxc : x ∈ certs := by
      rw [← hxi, List.getD_eq_getElem certs default hi']
      exact List.getElem_mem hi'
    have hxnot : x ∉ orderedCerts certs := by
      intro hxo
      obtain ⟨j, hj, hxj⟩ := List.mem_map.1 hxo
      have hj' : j < certs.length := hlt j hj
      have : i = j := getD_inj hvnd hi' hj' (by rw [hxi, hxj])
      subst this
      exact hinot hj
    exact List.mem_filter.2 ⟨hxc, by simpa using hxnot⟩
  · intro hx
    have hxc := List.mem_of_mem_filter hx
    have hxnot : x ∉ orderedCerts certs := by
      have := List.of_mem_filter hx
      simpa using this
    have hilt : certs.indexOf x < certs.length := List.indexOf_lt_length.2 hxc
    have hinot : certs.indexOf x ∉ (order_chain_leaf_to_root certs).1 := by
      intro hin
      exact hxnot (getD_indexOf hxc ▸ List.mem_map_of_mem _ hin)
    rw [unusedCerts, hidx]
    refine List.mem_map.2 ⟨certs.indexOf x, ?_, getD_indexOf hxc⟩
    exact List.mem_filter.2 ⟨List.mem_range.2 hilt, by simpa using hinot⟩

/-- Counterexample to C3 as stated: two unrelated certificates, neither of
which issues the other.  Both are leaf candidates, so the permuted run
picks the other leaf: the first chain elements differ and the unused
multisets differ. -/
theorem order_perm_cex :
    ([⟨[0], [2], []⟩, ⟨[1], [3], []⟩] : List Cert).Perm
      [⟨[1], [3], []⟩, ⟨[0], [2], []⟩]
    ∧ (orderedCerts [⟨[0], [2], []⟩, ⟨[1], [3], []⟩]).head?
        ≠ (orderedCerts [⟨[1], [3], []⟩, ⟨[0], [2], []⟩]).head?
    ∧ ¬ (unusedCerts [⟨[0], [2], []⟩, ⟨[1], [3], []⟩]).Perm
        (unusedCerts [⟨[1], [3], []⟩, ⟨[0], [2], []⟩]) :=
  ⟨List.Perm.swap _ _ _, by decide, fun hp => by
    have hm := hp.mem_iff (a := ⟨[1], [3], []⟩)
    revert hm
    decide⟩

/-- C3 amended: when the input has pairwise-distinct subject DNs and
exactly one leaf candidate, running the orderer on any permutation yields
the same first (leaf) certificate and unused sequences equal as multisets.
(As stated the claim fails: with several leaf candidates, or with subject
ties, first-match-wins makes the outcome depend on input order; see the
counterexample.) -/
theorem order_perm_stable (certs certs' : List Cert)
    (hperm : certs'.Perm certs)
    (hnd : (certs.map Cert.subject).Nodup)
    (huniq : (certs.filter (fun c => isLeafCandidate certs c)).length = 1) :
    (orderedCerts certs').head? = (orderedCerts certs).head?
    ∧ (unusedCerts certs').Perm (unusedCerts certs) := by
  by_cases hnil : certs = []
  · subst hnil
    have : certs' = [] := hperm.eq_nil
    subst this
    exact ⟨rfl, List.Perm.refl _⟩
  · have hnil' : certs' ≠ [] := by
      intro h
      subst h
      exact hnil hperm.symm.eq_nil
    have hnd' : (certs'.map Cert.subject).Nodup :=
      ((hperm.map Cert.subject).nodup_iff).2 hnd
    have hvnd : certs.Nodup := hnd.of_map _
    have hvnd' : certs'.Nodup := hnd'.of_map _
    obtain ⟨v, hv⟩ := List.length_eq_one.1 huniq
    have hvfil : v ∈ certs.filter (fun c => isLeafCandidate certs c) := by
      rw [hv]
      exact List.mem_cons_self _ _
    have hvmem : v ∈ certs := List.mem_of_mem_filter hvfil
    have hvcand : isLeafCandidate certs v = true := List.of_mem_filter hvfil
    have hiff : ∀ c ∈ certs, (isLeafCandidate certs c = true ↔ c = v) := by
      intro c hc
      constructor
      · intro hcand
        have hcfil : c ∈ certs.filter (fun c => isLeafCandidate certs c) :=
          List.mem_filter.2 ⟨hc, hcand⟩
        rw [hv] at hcfil
        simpa using hcfil
      · intro h
        subst h
        exact hvcand
    have hcand_eq : ∀ c : Cert,
        isLeafCandidate certs' c = isLeafCandidate certs c := by
      intro c
      rw [isLeafCandidate, isLeafCandidate]
      by_cases h : c.subject ∈ certs.map Cert.issuer
      · have h' : c.subject ∈ certs'.map Cert.issuer :=
          (hperm.map Cert.issuer).mem_iff.2 h
        have e1 : (certs.map Cert.issuer).contains c.subject = true := by
          simpa using h
        have e2 : (certs'.map Cert.issuer).contains c.subject = true := by
          simpa using h'
        rw [e1, e2]
      · have h' : c.subject ∉ certs'.map Cert.issuer :=
          fun hx => h ((hperm.map Cert.issuer).mem_iff.1 hx)
        have e1 : (certs.map Cert.issuer).contains c.subject = false :=
          Bool.eq_false_iff.2 (fun hx => h (by simpa using hx))
        have e2 : (certs'.map Cert.issuer).contains c.subject = false :=
          Bool.eq_false_iff.2 (fun hx => h' (by simpa using hx))
        rw [e1, e2]
    have hiff' : ∀ c ∈ certs', (isLeafCandidate certs' c = true ↔ c = v) := by
      intro c hc
      rw [hcand_eq c]
      exact hiff c (hperm.mem_iff.1 hc)
    have hvmem' : v ∈ certs' := hperm.mem_iff.2 hvmem
    have hleaf : leafIdx certs = certs.indexOf v := by
      rw [leafIdx, firstIdxP_eq_indexOf hvmem hiff]
      rfl
    have hleaf' : leafIdx certs' = certs'.indexOf v := by
      rw [leafIdx, firstIdxP_eq_indexOf hvmem' hiff']
      rfl
    have hOC : orderedCerts certs' = orderedCerts certs := by
      have h1 : (order_chain_leaf_to_root certs).1
          = chainWalk certs certs.length [leafIdx certs] (leafIdx certs) := by
        rw [order_chain_leaf_to_root]
      have h1' : (order_chain_leaf_to_root certs').1
          = chainWalk certs' certs'.length [leafIdx certs']
              (leafIdx certs') := by
        rw [order_chain_leaf_to_root]
      rw [orderedCerts, orderedCerts, h1, h1', hleaf, hleaf',
        hperm.length_eq]
      have hsingle : ∀ x ∈ [v], x ∈ certs := by
        intro x hx
        simp only [List.mem_singleton] at hx
        subst hx
        exact hvmem
      exact chainWalk_perm certs certs' hperm hnd certs.length [v] v hvmem
        hsingle
    refine ⟨by rw [hOC], ?_⟩
    have hu' := unusedCerts_perm_filter certs' hnil' hvnd'
    have hu := unusedCerts_perm_filter certs hnil hvnd
    have hfilter : (certs'.filter (fun c => c ∉ orderedCerts certs')).Perm
        (certs.filter (fun c => c ∉ orderedCerts certs)) := by
      rw [hOC]
      exact hperm.filter _
    exact (hu'.trans hfilter).trans hu.symm

/-- Witness for the amended C3: the two-certificate chain and its
transposition order to the same leaf with equally empty unused sets. -/
theorem order_perm_stable_witness :
    (orderedCerts [⟨[1], [1], []⟩, ⟨[0], [1], []⟩]).head?
      = (orderedCerts [⟨[0], [1], []⟩, ⟨[1], [1], []⟩]).head?
    ∧ (unusedCerts [⟨[1], [1], []⟩, ⟨[0], [1], []⟩]).Perm
        (unusedCerts [⟨[0], [1], []⟩, ⟨[1], [1], []⟩]) :=
  order_perm_stable [⟨[0], [1], []⟩, ⟨[1], [1], []⟩]
    [⟨[1], [1], []⟩, ⟨[0], [1], []⟩] (by decide) (by decide) (by decide)

end TlsDoctor
